import Mathlib

/-!
Shallow embedding of the four-player chess engine (board.py, pieces.py,
helpers.py, players.py) and verification of its specification claims.

Modelling conventions:
* Python `dict` (`piece_locations`) is an insertion-ordered association list
  `List (Position × Piece)`; `dget`/`dset`/`dpop` mirror `d.get`, `d[k] = v`
  and `d.pop(k)` (including insertion-order behaviour: an update of an
  existing key keeps its slot, a fresh key is appended at the end).
* A Python call that can raise (`dict.pop` on a missing key) is embedded as
  an `Option` result, `none` standing for the raised exception.
* String team membership (`color in piece.get_allied_colors()`) is the exact
  membership of a color in one of the two teams, which is what the substring
  test computes for the four color strings of this game.
* Pieces are one flat structure; the Pawn-only fields carry dummy defaults
  for the other kinds, exactly as they are unused by the source for them.
-/

namespace FourChess

/-- The four player colors. -/
inductive Color where
  | red | blue | yellow | green
deriving DecidableEq, Repr

/-- The two teams; `"redyellow"` and `"bluegreen"` in the source. -/
inductive Team where
  | RY | BG
deriving DecidableEq, Repr

/-- Team of a color: `"redyellow" if color in "redyellow" else "bluegreen"` (players.py). -/
def colorTeam : Color → Team
  | .red => .RY
  | .yellow => .RY
  | .blue => .BG
  | .green => .BG

/-- Membership test `color in team-string` used throughout board.py / pieces.py. -/
def teamHasColor (t : Team) (c : Color) : Bool :=
  colorTeam c == t

/-- helpers.py `Position`: an (x, y) pair of integers (row, column). -/
structure Position where
  x : Int
  y : Int
deriving DecidableEq, Repr

/-- Python truthiness of a `Position` object: the class defines no `__bool__`
or `__len__`, so every `Position` is truthy.  Needed to embed the literal
condition `poss_positions is None or end_position_diag_left` of pieces.py. -/
def Position.truthy (_ : Position) : Bool := true

/-- helpers.py `Move`: a start/end pair of positions.  The source compares
moves by their notation string, which on the 14x14 grid is equivalent to
comparing the (start, end) pair. -/
structure Move where
  start_position : Position
  end_position : Position
deriving DecidableEq, Repr

/-- A direction: an (x, y) increment pair. -/
abbrev Dir := Int × Int

/-- pieces.py `Piece` (flattened hierarchy): kind tag, color, team, and the
Pawn-specific fields (dummy defaults for non-pawns, unused by the source). -/
structure Piece where
  piece_name : String
  color : Color
  team : Team
  direction : Dir := (0, 0)
  diag_left_direction : Dir := (0, 0)
  diag_right_direction : Dir := (0, 0)
  start_position : Position := ⟨0, 0⟩
deriving DecidableEq, Repr

/-- `get_score` of each piece class (pieces.py): P 1, N 3, B 5, R 5, Q 9, K 0.
The abstract base returns `None`; it is unreachable for the six real kinds and
embedded as 0. -/
def Piece.get_score (p : Piece) : Int :=
  if p.piece_name == "P" then 1
  else if p.piece_name == "N" then 3
  else if p.piece_name == "B" then 5
  else if p.piece_name == "R" then 5
  else if p.piece_name == "Q" then 9
  else 0

/-- players.py `Player`: only the color matters to the board logic. -/
structure Player where
  color : Color
deriving DecidableEq, Repr

/-- The `piece_locations` dict: insertion-ordered association list. -/
abbrev PieceLocations := List (Position × Piece)

/-- `d.get(k)` on the locations dict: value of the first entry with this key. -/
def dget : PieceLocations → Position → Option Piece
  | [], _ => none
  | e :: rest, p => if e.1 = p then some e.2 else dget rest p

/-- `d.pop(k)`: remove the first entry with this key, returning its value
(`none` when the key is absent, in which case Python raises `KeyError`). -/
def dpop : PieceLocations → Position → Option Piece × PieceLocations
  | [], _ => (none, [])
  | e :: rest, p =>
    if e.1 = p then (some e.2, rest)
    else
      let r := dpop rest p
      (r.1, e :: r.2)

/-- `d[k] = v`: replace the value of the first entry with this key in place,
or append a fresh entry at the end (Python dict insertion-order semantics). -/
def dset : PieceLocations → Position → Piece → PieceLocations
  | [], p, v => [(p, v)]
  | e :: rest, p, v => if e.1 = p then (p, v) :: rest else e :: dset rest p v

/-- The keys of the locations dict, in insertion order. -/
def dkeys (l : PieceLocations) : List Position :=
  l.map (fun e => e.1)

/-- The dict invariant: each key occurs at most once. -/
def keysNodup (l : PieceLocations) : Prop :=
  (dkeys l).Nodup

instance (l : PieceLocations) : Decidable (keysNodup l) := by
  unfold keysNodup; infer_instance

/-- board.py `Board`: locations dict, cached legal-move list, the four
players, and the index of the player to move.  (`sq_size` is rendering-only
and omitted.) -/
structure Board where
  dimension : Nat
  piece_locations : PieceLocations
  legal_moves : List Move
  players : List Player
  current_player : Nat
deriving Repr, DecidableEq

/-- `self.players[self.current_player]` (indexing is in range for every real
game state; an out-of-range index is embedded by a default red player). -/
def get_current_player (b : Board) : Player :=
  b.players.getD b.current_player ⟨Color.red⟩

/-- board.py `remove_piece`: `dict.pop` wrapped in try/except, hence total. -/
def remove_piece (b : Board) (position : Position) : Option Piece × Board :=
  let r := dpop b.piece_locations position
  (r.1, { b with piece_locations := r.2 })

/-- board.py `check_for_piece`: `dict.get`. -/
def check_for_piece (b : Board) (position : Position) : Option Piece :=
  dget b.piece_locations position

/-- board.py `is_on_board`: the literal three-clause cross-shape condition,
with Python's chained comparisons expanded. -/
def is_on_board (_self : Board) (position : Position) : Bool :=
  ((3 ≤ position.x && position.x ≤ 10) && (0 ≤ position.y && position.y ≤ 13)) ||
    (0 ≤ position.x && position.x < 3 && 3 ≤ position.y && position.y ≤ 10) ||
    (position.x ≤ 13 && 10 < position.x && position.y ≤ 10 && 3 ≤ position.y)

/-- board.py `getmove`: a fresh position displaced by an (x, y) increment. -/
def getmove (_self : Board) (position : Position) (xm ym : Int) : Position :=
  ⟨position.x + xm, position.y + ym⟩

/-- board.py `make_move`: pop the destination (capture, total), then
`locations[end] = locations.pop(start)`; the bare `pop` raises `KeyError`
when the start square is unoccupied, embedded as `none`. -/
def make_move (b : Board) (move : Move) : Option (Option Piece × Board) :=
  let r := dpop b.piece_locations move.end_position
  match dpop r.2 move.start_position with
  | (none, _) => none
  | (some pc, locs2) =>
    some (r.1, { b with piece_locations := dset locs2 move.end_position pc })

/-- board.py `undo_move`: `locations[start] = locations.pop(end)`, then put a
captured piece back; the bare `pop` raises when the end square is empty. -/
def undo_move (b : Board) (move : Move) (removed_piece : Option Piece) : Option Board :=
  match dpop b.piece_locations move.end_position with
  | (none, _) => none
  | (some pc, locs1) =>
    let locs2 := dset locs1 move.start_position pc
    some { b with piece_locations :=
      match removed_piece with
      | some r => dset locs2 move.end_position r
      | none => locs2 }

/-- board.py `switch_players`. -/
def switch_players (b : Board) : Board :=
  if b.current_player < 3 then { b with current_player := b.current_player + 1 }
  else { b with current_player := 0 }

/-- board.py `score`: material balance from the current player's perspective,
allied pieces add their value and enemy pieces subtract it. -/
def score (b : Board) : Int :=
  b.piece_locations.foldl
    (fun s e =>
      if teamHasColor e.2.team (get_current_player b).color then s + e.2.get_score
      else s - e.2.get_score)
    0

/-- board.py `get_king_pos`: first key (insertion order) holding the current
player's own king; `none` embeds Python's silent fall-through `None`. -/
def get_king_pos (b : Board) : Option Position :=
  (b.piece_locations.find? (fun e =>
    e.2.color == (get_current_player b).color && e.2.piece_name == "K")).map (fun e => e.1)

/-- The eight ray directions of board.py `check_info` (4 orthogonal then 4
diagonal), in source order. -/
def rayDirections : List Dir :=
  [(-1, 0), (0, -1), (1, 0), (0, 1), (-1, -1), (-1, 1), (1, -1), (1, 1)]

/-- The eight knight offsets, in source order. -/
def knightOffsets : List Dir :=
  [(-2, -1), (-2, 1), (-1, -2), (-1, 2), (1, -2), (1, 2), (2, -1), (2, 1)]

/-- board.py `possible_check`: whether the enemy `piece`, met on ray `k` at
distance `tile` in direction `direction`, gives check.  Mirrors the source's
elif chain; the pawn branch's fall-through (returning `None`) is `false`. -/
def possible_check (_self : Board) (k : Nat) (tile : Nat) (piece : Piece) (direction : Dir) : Bool :=
  if k ≤ 3 && piece.piece_name == "R" then true
  else if (4 ≤ k && k ≤ 7) && piece.piece_name == "B" then true
  else if tile == 1 && piece.piece_name == "P" then
    piece.diag_left_direction == (-direction.1, -direction.2) ||
      piece.diag_right_direction == (-direction.1, -direction.2)
  else if piece.piece_name == "Q" then true
  else if tile == 1 && piece.piece_name == "K" then true
  else false

/-- The pin map built by `check_info`: in the source a dict keyed by the
pinning enemy piece object, with the (pinned allied square, ray direction)
pair as value.  Here keyed by piece value. -/
abbrev PinInfo := List (Piece × (Position × Dir))

/-- Dict assignment `pin_info[piece] = possible_pin` (value-keyed). -/
def pinSet : PinInfo → Piece → Position × Dir → PinInfo
  | [], pc, v => [(pc, v)]
  | e :: rest, pc, v => if e.1 = pc then (pc, v) :: rest else e :: pinSet rest pc v

/-- `if self in pin_info: pin_direction = pin_info[self][1]` of pieces.py. -/
def pinDirectionOf (pin_info : Option PinInfo) (self : Piece) : Option Dir :=
  match pin_info with
  | none => none
  | some pins => (pins.find? (fun e => e.1 == self)).map (fun e => e.2.2)

/-- Outcome of scanning one ray in `check_info`: no effect, a check entry, or
a pin entry. -/
inductive RayOut where
  | nothing
  | check (entry : Position × Dir)
  | pin (piece : Piece) (entry : Position × Dir)

/-- The inner `for tile in range(1, 13)` loop of `check_info` along one ray:
walk outward from the king, tracking at most one allied blocker
(`possible_pin`), and classify the first enemy piece met. -/
def scanRay (b : Board) (color : Color) (kingPos : Position) (k : Nat) (direction : Dir) :
    List Nat → Option (Position × Dir) → RayOut
  | [], _ => .nothing
  | tile :: rest, possible_pin =>
    let end_position := getmove b kingPos (direction.1 * tile) (direction.2 * tile)
    if is_on_board b end_position then
      match check_for_piece b end_position with
      | none => scanRay b color kingPos k direction rest possible_pin
      | some piece =>
        if teamHasColor piece.team color then
          match possible_pin with
          | none => scanRay b color kingPos k direction rest (some (end_position, direction))
          | some _ => .nothing
        else
          if possible_check b k tile piece direction then
            match possible_pin with
            | none => .check (end_position, direction)
            | some pe => .pin piece pe
          else .nothing
    else .nothing

/-- board.py `check_info`: ray scan for sliding/pawn/king checks and pins,
then the knight-offset scan.  A missing king returns `(True, {}, [])`
(the source's early `if position is None` branch). -/
def check_info (b : Board) : Bool × PinInfo × List (Position × Dir) :=
  match get_king_pos b with
  | none => (true, [], [])
  | some position =>
    let color := (get_current_player b).color
    let st1 := rayDirections.enum.foldl
      (fun (st : Bool × PinInfo × List (Position × Dir)) kd =>
        match scanRay b color position kd.1 kd.2 (List.range' 1 12) none with
        | .nothing => st
        | .check entry => (true, st.2.1, st.2.2 ++ [entry])
        | .pin pc entry => (st.1, pinSet st.2.1 pc entry, st.2.2))
      (false, [], [])
    knightOffsets.foldl
      (fun (st : Bool × PinInfo × List (Position × Dir)) m =>
        let end_pos := getmove b position m.1 m.2
        if is_on_board b end_pos then
          match check_for_piece b end_pos with
          | some poss_piece =>
            if !teamHasColor poss_piece.team color && poss_piece.piece_name == "N" then
              (true, st.2.1, st.2.2 ++ [(end_pos, m)])
            else st
          | none => st
        else st)
      st1

/-- The inner loop of board.py `block_or_capture`: accumulate ray squares
from the king toward the checker; falling off the loop returns Python's
implicit `None`. -/
def blockOrCaptureAux (kingPos : Position) (entry : Position × Dir) :
    List Nat → List Position → Option (List Position)
  | [], _ => none
  | tiles :: rest, acc =>
    let square : Position :=
      ⟨kingPos.x + entry.2.1 * tiles, kingPos.y + entry.2.2 * tiles⟩
    let acc1 := acc ++ [square]
    if square = entry.1 then some acc1
    else blockOrCaptureAux kingPos entry rest acc1

/-- board.py `block_or_capture`: squares between king and checker, checker
included.  The source dereferences `get_king_pos()` and `check_info[0]`
unguarded; both are present whenever `get_moves` reaches this call, and the
unreachable failure cases are embedded as `none`. -/
def block_or_capture (b : Board) (check_data : List (Position × Dir)) : Option (List Position) :=
  match get_king_pos b, check_data with
  | some kingPos, entry :: _ => blockOrCaptureAux kingPos entry (List.range' 1 12) []
  | _, _ => none

/-- Condition `poss_positions is None or p in poss_positions` of pieces.py. -/
def inPoss (poss_positions : Option (List Position)) (p : Position) : Bool :=
  match poss_positions with
  | none => true
  | some l => l.contains p

/-- Condition `pin_direction is None or pin_direction == d or pin_direction == -d`. -/
def pinAllows (pin_direction : Option Dir) (d : Dir) : Bool :=
  match pin_direction with
  | none => true
  | some pd => pd == d || pd == (-d.1, -d.2)

/-- Lines 137-147 of pieces.py `Pawn.get_legal_moves`: the forward one- and
two-square moves.  The two-square branch re-checks the ONE-square destination
against `poss_positions` (line 143), a source quirk kept verbatim. -/
def pawnForward (self : Piece) (board : Board) (position : Position)
    (poss_positions : Option (List Position)) (pin_direction : Option Dir)
    (end_position end_position_two_squares : Position) (moves : List Move) : List Move :=
  if (check_for_piece board end_position).isNone then
    if inPoss poss_positions end_position then
      if pinAllows pin_direction (self.direction.1, self.direction.2) then
        let movesA := moves ++ [Move.mk position end_position]
        if inPoss poss_positions end_position then
          if self.start_position == position &&
              (check_for_piece board end_position_two_squares).isNone then
            movesA ++ [Move.mk position end_position_two_squares]
          else movesA
        else movesA
      else moves
    else moves
  else moves

/-- Lines 148-155 of pieces.py `Pawn.get_legal_moves`: the diagonal-left
capture.  Line 151 tests `poss_positions is None or end_position_diag_left`,
the truthiness of the `Position` object (always true) rather than membership
in the allowed set — kept verbatim. -/
def pawnDiagLeft (self : Piece) (board : Board) (position : Position)
    (poss_positions : Option (List Position)) (pin_direction : Option Dir)
    (end_position_diag_left : Position) (moves : List Move) : List Move :=
  match check_for_piece board end_position_diag_left with
  | some pc =>
    if !teamHasColor self.team pc.color then
      if (poss_positions matches none) || end_position_diag_left.truthy then
        if pinAllows pin_direction
            (self.diag_left_direction.1, self.diag_left_direction.2) then
          moves ++ [Move.mk position end_position_diag_left]
        else moves
      else moves
    else moves
  | none => moves

/-- Lines 156-163 of pieces.py `Pawn.get_legal_moves`: the diagonal-right
capture, with the proper membership test. -/
def pawnDiagRight (self : Piece) (board : Board) (position : Position)
    (poss_positions : Option (List Position)) (pin_direction : Option Dir)
    (end_position_diag_right : Position) (moves : List Move) : List Move :=
  match check_for_piece board end_position_diag_right with
  | some pc =>
    if !teamHasColor self.team pc.color then
      if inPoss poss_positions end_position_diag_right then
        if pinAllows pin_direction
            (self.diag_right_direction.1, self.diag_right_direction.2) then
          moves ++ [Move.mk position end_position_diag_right]
        else moves
      else moves
    else moves
  | none => moves

/-- pieces.py `Pawn.get_legal_moves`: the guard on the forward square being
on the board (diagonal captures are only considered under it, a source
quirk), then the three blocks above in source order. -/
def Pawn.get_legal_moves (self : Piece) (board : Board) (moves : List Move)
    (position : Position) (poss_positions : Option (List Position))
    (pin_info : Option PinInfo) : List Move :=
  let end_position := getmove board position self.direction.1 self.direction.2
  let end_position_two_squares :=
    getmove board position (self.direction.1 * 2) (self.direction.2 * 2)
  let end_position_diag_left :=
    getmove board position self.diag_left_direction.1 self.diag_left_direction.2
  let end_position_diag_right :=
    getmove board position self.diag_right_direction.1 self.diag_right_direction.2
  let pin_direction := pinDirectionOf pin_info self
  if is_on_board board end_position then
    pawnDiagRight self board position poss_positions pin_direction end_position_diag_right
      (pawnDiagLeft self board position poss_positions pin_direction end_position_diag_left
        (pawnForward self board position poss_positions pin_direction end_position
          end_position_two_squares moves))
  else moves

/-- pieces.py `Knight.get_legal_moves`. -/
def Knight.get_legal_moves (self : Piece) (board : Board) (moves : List Move)
    (position : Position) (poss_positions : Option (List Position))
    (_pin_info : Option PinInfo) : List Move :=
  knightOffsets.foldl
    (fun ms direction =>
      let end_position := getmove board position direction.1 direction.2
      if inPoss poss_positions end_position then
        if is_on_board board end_position then
          match check_for_piece board end_position with
          | none => ms ++ [Move.mk position end_position]
          | some pc =>
            if !teamHasColor self.team pc.color then ms ++ [Move.mk position end_position]
            else ms
        else ms
      else ms)
    moves

/-- One ray of the sliding-piece loop shared by `Bishop.get_legal_moves` and
`Rook.get_legal_moves`: walk outward, append empty squares, include a first
enemy square, stop at allies, enemies and the board edge. -/
def slideRay (self : Piece) (board : Board) (position : Position)
    (poss_positions : Option (List Position)) (pin_direction : Option Dir)
    (direction : Dir) : List Nat → List Move → List Move
  | [], moves => moves
  | tiles :: rest, moves =>
    let end_position := getmove board position (direction.1 * tiles) (direction.2 * tiles)
    if is_on_board board end_position then
      match check_for_piece board end_position with
      | none =>
        let ms :=
          if inPoss poss_positions end_position && pinAllows pin_direction direction then
            moves ++ [Move.mk position end_position]
          else moves
        slideRay self board position poss_positions pin_direction direction rest ms
      | some pc =>
        if !teamHasColor self.team pc.color then
          if inPoss poss_positions end_position && pinAllows pin_direction direction then
            moves ++ [Move.mk position end_position]
          else moves
        else moves
    else moves

/-- pieces.py `Bishop.get_legal_moves`: 4 diagonal rays, `range(1, 10)`. -/
def Bishop.get_legal_moves (self : Piece) (board : Board) (moves : List Move)
    (position : Position) (poss_positions : Option (List Position))
    (pin_info : Option PinInfo) : List Move :=
  let pin_direction := pinDirectionOf pin_info self
  [((-1 : Int), (-1 : Int)), (-1, 1), (1, -1), (1, 1)].foldl
    (fun ms direction =>
      slideRay self board position poss_positions pin_direction direction
        (List.range' 1 9) ms)
    moves

/-- pieces.py `Rook.get_legal_moves`: 4 orthogonal rays, `range(1, 13)`. -/
def Rook.get_legal_moves (self : Piece) (board : Board) (moves : List Move)
    (position : Position) (poss_positions : Option (List Position))
    (pin_info : Option PinInfo) : List Move :=
  let pin_direction := pinDirectionOf pin_info self
  [((-1 : Int), (0 : Int)), (0, -1), (1, 0), (0, 1)].foldl
    (fun ms direction =>
      slideRay self board position poss_positions pin_direction direction
        (List.range' 1 12) ms)
    moves

/-- pieces.py `Queen.get_legal_moves`: the Rook pass followed by the Bishop
pass on the same accumulator. -/
def Queen.get_legal_moves (self : Piece) (board : Board) (moves : List Move)
    (position : Position) (poss_positions : Option (List Position))
    (pin_info : Option PinInfo) : List Move :=
  Bishop.get_legal_moves self board
    (Rook.get_legal_moves self board moves position poss_positions pin_info)
    position poss_positions pin_info

/-- board.py `simulate` with `switch=False`: a fresh `Board(14, players,
locations.copy(), current_player)` on which the move is applied; `none`
embeds the `KeyError` of `make_move` on a vacant start square. -/
def simulateNoSwitch (b : Board) (move : Move) : Option Board :=
  let new_board : Board :=
    { dimension := 14, piece_locations := b.piece_locations, legal_moves := [],
      players := b.players, current_player := b.current_player }
  (make_move new_board move).map (fun r => r.2)

/-- pieces.py `King.get_legal_moves`: each adjacent destination is simulated
without switching the turn and kept only if the mover is not in check there.
The unused `poss_positions`/`pin_info` parameters of the source are kept.
The `none` branch of the inner simulation is unreachable when a piece stands
on `position` (as in every call of the source). -/
def King.get_legal_moves (self : Piece) (board : Board) (moves : List Move)
    (position : Position) (_poss_positions : Option (List Position))
    (_pin_info : Option PinInfo) : List Move :=
  rayDirections.foldl
    (fun ms direction =>
      let end_position := getmove board position direction.1 direction.2
      if is_on_board board end_position then
        match simulateNoSwitch board (Move.mk position end_position) with
        | none => ms
        | some b2 =>
          if !(check_info b2).1 then
            match check_for_piece board end_position with
            | none => ms ++ [Move.mk position end_position]
            | some pc =>
              if !teamHasColor self.team pc.color then
                ms ++ [Move.mk position end_position]
              else ms
          else ms
      else ms)
    moves

/-- Dynamic dispatch of `get_legal_moves` over the piece classes. -/
def Piece.get_legal_moves (self : Piece) (board : Board) (moves : List Move)
    (position : Position) (poss_positions : Option (List Position))
    (pin_info : Option PinInfo) : List Move :=
  if self.piece_name == "P" then
    Pawn.get_legal_moves self board moves position poss_positions pin_info
  else if self.piece_name == "N" then
    Knight.get_legal_moves self board moves position poss_positions pin_info
  else if self.piece_name == "B" then
    Bishop.get_legal_moves self board moves position poss_positions pin_info
  else if self.piece_name == "R" then
    Rook.get_legal_moves self board moves position poss_positions pin_info
  else if self.piece_name == "Q" then
    Queen.get_legal_moves self board moves position poss_positions pin_info
  else if self.piece_name == "K" then
    King.get_legal_moves self board moves position poss_positions pin_info
  else moves

/-- The `for pos in self.piece_locations.keys()` loop of board.py
`get_moves`: accumulate into `legal`, with the early `return None` of the
`in_check` / empty-check-list branch. -/
def getMovesAux (b : Board) (in_check : Bool) (pin_info : PinInfo)
    (check_data : List (Position × Dir)) : List Position → List Move → Option (List Move)
  | [], legal => some legal
  | pos :: rest, legal =>
    match dget b.piece_locations pos with
    | none => getMovesAux b in_check pin_info check_data rest legal
    | some pc =>
      if pc.color == (get_current_player b).color then
        if in_check then
          if check_data.length == 0 then none
          else if check_data.length == 1 then
            if ((dget b.piece_locations (check_data.headD (⟨0, 0⟩, (0, 0))).1).map
                  (fun q => q.piece_name)) == some "N" then
              getMovesAux b in_check pin_info check_data rest
                (legal ++ [Move.mk pos (check_data.headD (⟨0, 0⟩, (0, 0))).1])
            else
              getMovesAux b in_check pin_info check_data rest
                (pc.get_legal_moves b legal pos (block_or_capture b check_data) none)
          else if pc.piece_name == "K" then
            getMovesAux b in_check pin_info check_data rest
              (pc.get_legal_moves b legal pos none none)
          else getMovesAux b in_check pin_info check_data rest legal
        else
          getMovesAux b in_check pin_info check_data rest
            (pc.get_legal_moves b legal pos none (some pin_info))
      else getMovesAux b in_check pin_info check_data rest legal

/-- board.py `get_moves`: compute check/pin data once, then extend the cached
`legal_moves` with each owned piece's moves; the returned board carries the
updated cache (`none` embeds the source's `return None`). -/
def get_moves (b : Board) : Option (List Move) × Board :=
  let info := check_info b
  match getMovesAux b info.1 info.2.1 info.2.2 (dkeys b.piece_locations) b.legal_moves with
  | none => (none, b)
  | some l => (some l, { b with legal_moves := l })

/-- board.py `simulate`: clone, apply the move, and when `switch` is set also
rotate the turn and eagerly recompute the new side's legal moves. -/
def simulate (b : Board) (move : Move) (switch : Bool) : Option Board :=
  (simulateNoSwitch b move).map
    (fun new_board =>
      if switch then (get_moves (switch_players new_board)).2 else new_board)

/-- Scores and alpha-beta bounds of players.py: Python ints together with the
two infinities `float(-inf)` / `float(inf)` used as initial bounds. -/
inductive XInt where
  | negInf
  | fin (n : Int)
  | posInf
deriving DecidableEq, Repr

/-- Strict `<` on scores and bounds. -/
def XInt.lt : XInt → XInt → Bool
  | .negInf, .negInf => false
  | .negInf, _ => true
  | .fin _, .negInf => false
  | .fin a, .fin b => a < b
  | .fin _, .posInf => true
  | .posInf, _ => false

/-- Non-strict `≤` on scores and bounds. -/
def XInt.le (a b : XInt) : Bool :=
  XInt.lt a b || a == b

/-- Negation on scores and bounds. -/
def XInt.neg : XInt → XInt
  | .negInf => .posInf
  | .posInf => .negInf
  | .fin n => .fin (-n)

/-- The decorate step of players.py `get_ordered_moves`: pair every cached
legal move with the key `simulate(move, switch=False).score()` that Python's
`sorted` computes once per element; a `KeyError` inside the key propagates. -/
def decorate (b : Board) : List Move → Option (List (Move × Int))
  | [] => some []
  | mv :: rest =>
    match simulate b mv false with
    | none => none
    | some nb =>
      match decorate b rest with
      | none => none
      | some keyed => some ((mv, score nb) :: keyed)

/-- players.py `get_ordered_moves`: decorate each cached legal move with its
static score, stable-sort descending by that key (Python
`sorted(..., reverse=True)`), and strip the keys. -/
def get_ordered_moves (b : Board) : Option (List Move) :=
  (decorate b b.legal_moves).map
    (fun keyed =>
      (keyed.mergeSort (fun x y => decide (y.2 ≤ x.2))).map (fun e => e.1))

/-- The `for move in ordered_moves` loop of players.py `alpha_beta`, with the
running `best_score`/`alpha` and the `self.best_move` cell threaded through;
`recur` is the evaluation of the remaining depth.  The loop breaks on
`alpha >= beta`; exceptions propagate as `none`. -/
def abLoop (recur : Board → Nat → XInt → XInt → Option Move → Option (XInt × Option Move))
    (b : Board) (depth initial_depth : Nat) (beta : XInt) :
    List Move → XInt → XInt → Option Move → Option (XInt × Option Move)
  | [], best_score, _, best_move => some (best_score, best_move)
  | move :: rest, best_score, alpha, best_move =>
    match simulate b move true with
    | none => none
    | some nb =>
      match recur nb initial_depth beta.neg alpha.neg best_move with
      | none => none
      | some (sub, bm1) =>
        let scoreV := sub.neg
        let next :=
          if XInt.lt best_score scoreV then
            (scoreV, if depth == initial_depth then some move else bm1)
          else (best_score, bm1)
        let alpha1 := if XInt.lt alpha next.1 then next.1 else alpha
        if XInt.le beta alpha1 then some next
        else abLoop recur b depth initial_depth beta rest next.1 alpha1 next.2

/-- players.py `alpha_beta` (negamax with alpha-beta cutoff), result paired
with the `self.best_move` cell.  The source's `board.legal_moves is None`
guard is skipped: the attribute is always a list.  (`self.complexity` is a
profiling counter and omitted.) -/
def alpha_beta : Nat → Board → Nat → XInt → XInt → Option Move → Option (XInt × Option Move)
  | 0, b, _, _, _, best_move => some (.fin (score b), best_move)
  | d + 1, b, initial_depth, alpha, beta, best_move =>
    match get_ordered_moves b with
    | none => none
    | some ordered_moves =>
      abLoop (alpha_beta d) b (d + 1) initial_depth beta ordered_moves .negInf alpha best_move

/-!
Store-level model of `simulate`, for the frame claim: the locations dict and
the board objects live in a store addressed by index, so that the shallow
`self.piece_locations.copy()` of board.py line 303 is visible as the
allocation of a fresh dict, and mutation of the clone is a write to that
fresh cell only.  The short-lived boards allocated inside the king's one-ply
lookahead are garbage never aliased to pre-existing cells and stay pure.
-/

/-- A board object whose locations dict lives in the store at `locRef`. -/
structure BoardObj where
  dimension : Nat
  locRef : Nat
  legal_moves : List Move
  players : List Player
  current_player : Nat
deriving Repr, DecidableEq

/-- The store: every allocated locations dict and board object. -/
structure Store where
  dicts : List PieceLocations
  boards : List BoardObj
deriving Repr, DecidableEq

/-- The value view of a board object: its fields with the dict dereferenced. -/
def BoardObj.view (st : Store) (bo : BoardObj) : Board :=
  { dimension := bo.dimension, piece_locations := st.dicts.getD bo.locRef [],
    legal_moves := bo.legal_moves, players := bo.players,
    current_player := bo.current_player }

/-- board.py `simulate` acting on the store: read the receiver, allocate a
copy of its dict and a fresh `Board` object over it, run the move (and the
optional turn switch plus move regeneration) against the fresh cells, and
return the new object's reference.  `none` embeds a `KeyError` escaping from
`make_move`. -/
def simulateStore (st : Store) (self : Nat) (move : Move) (switch : Bool) :
    Store × Option Nat :=
  match st.boards[self]? with
  | none => (st, none)
  | some bo =>
    let newDictRef := st.dicts.length
    let st1 : Store := { st with dicts := st.dicts ++ [st.dicts.getD bo.locRef []] }
    match simulate (bo.view st) move switch with
    | none => (st1, none)
    | some nb =>
      let newBoardRef := st1.boards.length
      let st2 : Store :=
        { dicts := st1.dicts.set newDictRef nb.piece_locations,
          boards := st1.boards ++
            [{ dimension := nb.dimension, locRef := newDictRef,
               legal_moves := nb.legal_moves, players := nb.players,
               current_player := nb.current_player }] }
      (st2, some newBoardRef)

/-! Concrete game data used to instantiate the claims. -/

/-- The four players in turn order red, blue, yellow, green. -/
def stdPlayers : List Player := [⟨.red⟩, ⟨.blue⟩, ⟨.yellow⟩, ⟨.green⟩]

/-- A board over the standard players with red to move. -/
def mkBoard (locs : PieceLocations) : Board :=
  { dimension := 14, piece_locations := locs, legal_moves := [],
    players := stdPlayers, current_player := 0 }

/-- A red king. -/
def redKing : Piece := { piece_name := "K", color := .red, team := .RY }

/-- A blue knight. -/
def blueKnight : Piece := { piece_name := "N", color := .blue, team := .BG }

/-- A red rook. -/
def redRook : Piece := { piece_name := "R", color := .red, team := .RY }

/-- A blue pawn (pawn fields irrelevant to the tests it appears in). -/
def bluePawn : Piece := { piece_name := "P", color := .blue, team := .BG }

/-- A red pawn moving toward decreasing rows, as the red side does. -/
def redPawn : Piece :=
  { piece_name := "P", color := Color.red, team := Team.RY,
    direction := (-1, 0), diag_left_direction := (-1, -1),
    diag_right_direction := (-1, 1), start_position := ⟨12, 7⟩ }

/-- A board with no pieces at all. -/
def emptyB : Board := mkBoard []

/-- A lone red king in the middle of the board. -/
def exLoneKing : Board := mkBoard [(⟨7, 7⟩, redKing)]

/-- Red king checked by a blue knight (single knight check). -/
def exKnightCheck : Board := mkBoard [(⟨7, 7⟩, redKing), (⟨5, 6⟩, blueKnight)]

/-- Red pawn with an enemy piece diagonally to its left. -/
def exPawnPoss : Board := mkBoard [(⟨7, 7⟩, redPawn), (⟨6, 6⟩, bluePawn)]

/-- A red rook on the top edge of the cross, all rays unobstructed. -/
def exRookEdge : Board := mkBoard [(⟨0, 5⟩, redRook)]

/-- A red rook and a blue pawn it can capture. -/
def exRoundtrip : Board := mkBoard [(⟨7, 7⟩, redRook), (⟨7, 9⟩, bluePawn)]

/-- The capture move of `exRoundtrip`. -/
def exCapture : Move := Move.mk ⟨7, 7⟩ ⟨7, 9⟩

/-- `exRoundtrip` with a two-entry legal-move cache: the pawn capture and a
quiet rook move; the capture strictly maximizes red's material balance. -/
def exAlphaBeta : Board :=
  { dimension := 14, piece_locations := [(⟨7, 7⟩, redRook), (⟨7, 9⟩, bluePawn)],
    legal_moves := [Move.mk ⟨7, 7⟩ ⟨6, 7⟩, exCapture],
    players := stdPlayers, current_player := 0 }

/-- A one-board, one-dict store holding `exLoneKing`. -/
def exStore : Store :=
  { dicts := [[(⟨7, 7⟩, redKing)]],
    boards := [{ dimension := 14, locRef := 0, legal_moves := [],
                 players := stdPlayers, current_player := 0 }] }

/-! Helper lemmas shared between the claim theorems. -/

/-- A fold whose step only appends to its accumulator distributes over it. -/
theorem foldl_append_step {α : Type} (g : List Move → α → List Move)
    (hg : ∀ ms a, g ms a = ms ++ g [] a) (l : List α) :
    ∀ ms : List Move, l.foldl g ms = ms ++ l.foldl g [] := by
  induction l with
  | nil => intro ms; simp
  | cons a l ih =>
    intro ms
    rw [List.foldl_cons, ih (g ms a), hg ms a, List.append_assoc]
    rw [List.foldl_cons, ih (g [] a)]

/-- Popping one key leaves lookups of every other key unchanged. -/
theorem dget_dpop_ne (l : PieceLocations) (e q : Position) (h : q ≠ e) :
    dget (dpop l e).2 q = dget l q := by
  induction l with
  | nil => rfl
  | cons a rest ih =>
    have heq : ¬ e = q := fun (hh : e = q) => h hh.symm
    have hqe : ¬ q = e := h
    by_cases ha : a.1 = e
    · simp [dpop, dget, ha, heq]
    · by_cases hq : a.1 = q
      · simp [dpop, dget, ha, hq, hqe]
      · simp [dpop, dget, ha, hq, ih]

/-- `pop` returns exactly what `get` sees. -/
theorem dpop_fst (l : PieceLocations) (e : Position) : (dpop l e).1 = dget l e := by
  induction l with
  | nil => rfl
  | cons a rest ih =>
    by_cases ha : a.1 = e
    · simp [dpop, dget, ha]
    · simp [dpop, dget, ha, ih]

/-- Lookup of a key absent from the key list is `none`. -/
theorem dget_none_of_not_keys (l : PieceLocations) (e : Position) (h : e ∉ dkeys l) :
    dget l e = none := by
  induction l with
  | nil => rfl
  | cons a rest ih =>
    simp only [dkeys, List.map_cons, List.mem_cons] at h
    push_neg at h
    have hae : ¬ a.1 = e := fun (hq : a.1 = e) => h.1 hq.symm
    have htail : dget rest e = none := ih (by simpa [dkeys] using h.2)
    simp [dget, hae, htail]

/-- The keys after a pop form a sublist of the original keys. -/
theorem dkeys_dpop_sublist (l : PieceLocations) (e : Position) :
    (dkeys (dpop l e).2).Sublist (dkeys l) := by
  induction l with
  | nil => simp [dpop, dkeys]
  | cons a rest ih =>
    by_cases ha : a.1 = e
    · simp only [dpop, ha, if_pos rfl, dkeys, List.map_cons]
      exact List.sublist_cons_self _ _
    · simp only [dpop, if_neg ha, dkeys, List.map_cons]
      exact List.Sublist.cons₂ _ ih

/-- Popping preserves key uniqueness. -/
theorem keysNodup_dpop (l : PieceLocations) (e : Position) (h : keysNodup l) :
    keysNodup (dpop l e).2 :=
  (dkeys_dpop_sublist l e).nodup h

/-- Under unique keys, a popped key no longer resolves. -/
theorem dget_dpop_self (l : PieceLocations) (e : Position) (h : keysNodup l) :
    dget (dpop l e).2 e = none := by
  induction l with
  | nil => rfl
  | cons a rest ih =>
    have hsplit : a.1 ∉ dkeys rest ∧ (dkeys rest).Nodup := by
      have hh := h
      simp only [keysNodup, dkeys, List.map_cons, List.nodup_cons] at hh
      exact ⟨by simpa [dkeys] using hh.1, hh.2⟩
    by_cases ha : a.1 = e
    · have habs : dget rest e = none := dget_none_of_not_keys rest e (ha ▸ hsplit.1)
      simp [dpop, ha, habs]
    · have htail : dget (dpop rest e).2 e = none := ih hsplit.2
      simp [dpop, dget, ha, htail]

/-- Assignment makes the assigned key resolve to the new value. -/
theorem dget_dset_self (l : PieceLocations) (p : Position) (v : Piece) :
    dget (dset l p v) p = some v := by
  induction l with
  | nil => simp [dset, dget]
  | cons a rest ih =>
    by_cases ha : a.1 = p
    · simp [dset, dget, ha]
    · simp [dset, dget, ha, ih]

/-- Assignment leaves lookups of every other key unchanged. -/
theorem dget_dset_ne (l : PieceLocations) (p : Position) (v : Piece) (q : Position)
    (h : q ≠ p) : dget (dset l p v) q = dget l q := by
  have hpq : ¬ p = q := fun (hq : p = q) => h hq.symm
  induction l with
  | nil => simp [dset, dget, hpq]
  | cons a rest ih =>
    by_cases ha : a.1 = p
    · have haq : ¬ a.1 = q := fun (hq : a.1 = q) => h (hq.symm.trans ha)
      simp [dset, dget, ha, haq, hpq]
    · by_cases hq : a.1 = q
      · simp [dset, dget, ha, hq, h]
      · simp [dset, dget, ha, hq, ih]

/-- The key list after an assignment: unchanged for an update, the new key
appended for an insertion. -/
theorem dkeys_dset (l : PieceLocations) (p : Position) (v : Piece) :
    dkeys (dset l p v) = if p ∈ dkeys l then dkeys l else dkeys l ++ [p] := by
  induction l with
  | nil => simp [dset, dkeys]
  | cons a rest ih =>
    by_cases ha : a.1 = p
    · simp [dset, dkeys, ha]
    · have hne : ¬ p = a.1 := fun (hq : p = a.1) => ha hq.symm
      simp only [dkeys] at ih ⊢
      by_cases hp : p ∈ List.map (fun e => e.1) rest
      · simp [dset, ha, hne, hp, ih]
      · simp [dset, ha, hne, hp, ih]

/-- Assignment preserves key uniqueness. -/
theorem keysNodup_dset (l : PieceLocations) (p : Position) (v : Piece)
    (h : keysNodup l) : keysNodup (dset l p v) := by
  unfold keysNodup at h ⊢
  rw [dkeys_dset]
  by_cases hp : p ∈ dkeys l
  · rw [if_pos hp]; exact h
  · rw [if_neg hp]
    exact List.Nodup.append h (List.nodup_singleton p) (by simpa using hp)

/-- `make_move` succeeds whenever the start square is occupied and differs
from the end square. -/
theorem make_move_isSome (b : Board) (m : Move)
    (h1 : (dget b.piece_locations m.start_position).isSome)
    (h2 : m.start_position ≠ m.end_position) : (make_move b m).isSome := by
  have hget : dget (dpop b.piece_locations m.end_position).2 m.start_position =
      dget b.piece_locations m.start_position :=
    dget_dpop_ne _ _ _ h2
  rcases hsome : dget b.piece_locations m.start_position with _ | pc
  · rw [hsome] at h1; simp at h1
  · have hfst : (dpop (dpop b.piece_locations m.end_position).2 m.start_position).1 =
        some pc := by
      rw [dpop_fst, hget, hsome]
    simp only [make_move]
    rcases hv : dpop (dpop b.piece_locations m.end_position).2 m.start_position with ⟨v, locs⟩
    rw [hv] at hfst
    have hv2 : v = some pc := hfst
    subst hv2
    simp

/-! Claim C4: the board-shape predicate. -/

set_option maxRecDepth 16384 in
/-- C4: `is_on_board` holds exactly on the cross-shaped union of the three
bands rows 3-10 x columns 0-13, rows 0-2 x columns 3-10 and
rows 11-13 x columns 3-10, and exactly 160 of the 196 grid cells satisfy it. -/
theorem C4_is_on_board_cross :
    (∀ (b : Board) (x y : Int), is_on_board b ⟨x, y⟩ = true ↔
      ((3 ≤ x ∧ x ≤ 10) ∧ (0 ≤ y ∧ y ≤ 13)) ∨
        ((0 ≤ x ∧ x ≤ 2) ∧ (3 ≤ y ∧ y ≤ 10)) ∨
        ((11 ≤ x ∧ x ≤ 13) ∧ (3 ≤ y ∧ y ≤ 10))) ∧
    (((List.range 14).flatMap (fun x => (List.range 14).map (fun y => (x, y)))).filter
      (fun c => is_on_board emptyB ⟨(c.1 : Int), (c.2 : Int)⟩)).length = 160 := by
  constructor
  · intro b x y
    simp only [is_on_board, Bool.or_eq_true, Bool.and_eq_true, decide_eq_true_eq]
    omega
  · decide

/-! Claim C7: `in_check` with an empty check list. -/

/-- C7 counterexample: on a board with no king for the side to move,
`check_info` returns `in_check = true` together with an empty check list
(the source's `if position is None` branch), refuting the claim that this
combination never occurs. -/
theorem C7_counterexample :
    (check_info emptyB).1 = true ∧ (check_info emptyB).2.2 = [] := by
  decide

/-- A fold step that preserves a predicate preserves it over `List.foldl`. -/
theorem foldl_preserves {α β : Type} (P : β → Prop) (f : β → α → β)
    (hf : ∀ st a, P st → P (f st a)) (l : List α) :
    ∀ st, P st → P (l.foldl f st) := by
  induction l with
  | nil => intro st h; exact h
  | cons a l ih => intro st h; exact ih _ (hf st a h)

/-- C7 amended: whenever the current player's king is on the board,
`check_info` never reports `in_check = true` with an empty check list: every
branch that sets `in_check` also appends a check entry. -/
theorem C7_amended_in_check_has_entry (b : Board)
    (hking : get_king_pos b ≠ none)
    (hic : (check_info b).1 = true) : (check_info b).2.2 ≠ [] := by
  rcases hk : get_king_pos b with _ | kpos
  · exact absurd hk hking
  · revert hic
    unfold check_info
    rw [hk]
    apply foldl_preserves
      (P := fun (st : Bool × PinInfo × List (Position × Dir)) => st.1 = true → st.2.2 ≠ [])
    · intro st a hst
      by_cases hob : is_on_board b (getmove b kpos a.1 a.2) = true
      · rw [if_pos hob]
        cases check_for_piece b (getmove b kpos a.1 a.2) with
        | none => exact hst
        | some pc =>
          dsimp only
          by_cases hcond : (!teamHasColor pc.team (get_current_player b).color &&
              pc.piece_name == "N") = true
          · rw [if_pos hcond]
            intro _
            simp
          · rw [if_neg hcond]
            exact hst
      · rw [if_neg hob]
        exact hst
    · apply foldl_preserves
        (P := fun (st : Bool × PinInfo × List (Position × Dir)) => st.1 = true → st.2.2 ≠ [])
      · intro st kd hst
        cases scanRay b (get_current_player b).color kpos kd.1 kd.2 (List.range' 1 12) none with
        | nothing => exact hst
        | check entry =>
          intro _
          simp
        | pin pc entry => exact hst
      · intro h
        simp at h

/-- C7 amended witness: the knight-check board has a king, is in check, and
indeed carries a non-empty check list. -/
theorem C7_amended_witness :
    get_king_pos exKnightCheck ≠ none ∧ (check_info exKnightCheck).1 = true ∧
      (check_info exKnightCheck).2.2 ≠ [] :=
  ⟨by decide, by decide,
    C7_amended_in_check_has_entry exKnightCheck (by decide) (by decide)⟩

/-! Claim C6: totality of the board operations. -/

/-- C6 counterexample: `make_move` on a move whose start square is unoccupied
does not return a value: the bare `dict.pop` raises `KeyError`, embedded as
`none`. -/
theorem C6_counterexample :
    make_move emptyB (Move.mk ⟨7, 7⟩ ⟨7, 8⟩) = none := by
  decide

/-- C6 amended: `remove_piece`, `check_for_piece` and `is_on_board` are total,
and `make_move` returns a value whenever the moved-from square is occupied
and differs from the destination (otherwise it raises). -/
theorem C6_amended_make_move_total (b : Board) (m : Move)
    (h1 : (dget b.piece_locations m.start_position).isSome)
    (h2 : m.start_position ≠ m.end_position) :
    (make_move b m).isSome := make_move_isSome b m h1 h2

/-- C6 amended witness: on the rook-and-pawn board the capture succeeds. -/
theorem C6_amended_witness :
    (dget exRoundtrip.piece_locations exCapture.start_position).isSome = true ∧
      exCapture.start_position ≠ exCapture.end_position ∧
      (make_move exRoundtrip exCapture).isSome = true :=
  ⟨by decide, by decide,
    C6_amended_make_move_total exRoundtrip exCapture (by decide) (by decide)⟩

/-! Claim C1: the allowed-target set for non-king pieces. -/

/-- C1 failing input: with the allowed target set `[(0,0)]`, the pawn still
appends its diagonal-left capture to (6,6) — the source tests the truthiness
of the `Position` instead of membership (pieces.py line 151) — so a generated
move ends outside the allowed set. -/
theorem C1_pawn_ignores_target_set :
    Pawn.get_legal_moves redPawn exPawnPoss [] ⟨7, 7⟩ (some [⟨0, 0⟩]) none =
      [Move.mk ⟨7, 7⟩ ⟨6, 6⟩] ∧
    (⟨6, 6⟩ : Position) ∉ [(⟨0, 0⟩ : Position)] := by
  constructor
  · decide
  · decide

/-! Claim C5: rook rays on an unobstructed board. -/

/-- C5 failing input: a rook at (0,5) with all four rays empty.  The edge
square (13,5) is on the board and the whole file between is empty, yet the
generated moves stop at (12,5): the loop runs `range(1, 13)` — 12 tiles —
while the board diameter needs 13. -/
theorem C5_rook_misses_edge :
    is_on_board exRookEdge (⟨13, 5⟩ : Position) = true ∧
    ((List.range' 1 13).all (fun t =>
      is_on_board exRookEdge ⟨(t : Int), 5⟩ &&
        (check_for_piece exRookEdge ⟨(t : Int), 5⟩).isNone)) = true ∧
    (Move.mk ⟨0, 5⟩ ⟨12, 5⟩ ∈ Rook.get_legal_moves redRook exRookEdge [] ⟨0, 5⟩ none none) ∧
    (Move.mk ⟨0, 5⟩ ⟨13, 5⟩ ∉ Rook.get_legal_moves redRook exRookEdge [] ⟨0, 5⟩ none none) := by
  refine ⟨by decide, by decide, by decide, by decide⟩

/-! Claim C2: the make/undo round trip. -/

/-- C2: `make_move` followed by `undo_move` with the piece it returned
restores the piece-locations mapping exactly, for every board with unique
dict keys and every move whose start square is occupied and distinct from
its end square. -/
theorem C2_make_undo_roundtrip (b : Board) (m : Move) (pc : Piece)
    (hnd : keysNodup b.piece_locations)
    (hocc : dget b.piece_locations m.start_position = some pc)
    (hne : m.start_position ≠ m.end_position) :
    ∃ r b1 b2, make_move b m = some (r, b1) ∧ undo_move b1 m r = some b2 ∧
      ∀ q, dget b2.piece_locations q = dget b.piece_locations q := by
  have hnes : m.end_position ≠ m.start_position := fun hh => hne hh.symm
  have hrem : (dpop b.piece_locations m.end_position).1 =
      dget b.piece_locations m.end_position := dpop_fst _ _
  have hnd1 : keysNodup (dpop b.piece_locations m.end_position).2 :=
    keysNodup_dpop _ _ hnd
  have hL1s : dget (dpop b.piece_locations m.end_position).2 m.start_position = some pc := by
    rw [dget_dpop_ne _ _ _ hne]; exact hocc
  have hpop1 : (dpop (dpop b.piece_locations m.end_position).2 m.start_position).1 =
      some pc := by
    rw [dpop_fst]; exact hL1s
  rcases hv : dpop (dpop b.piece_locations m.end_position).2 m.start_position with ⟨v, L2⟩
  rw [hv] at hpop1
  have hv2 : v = some pc := hpop1
  subst hv2
  have hmm : make_move b m =
      some ((dpop b.piece_locations m.end_position).1,
        { b with piece_locations := dset L2 m.end_position pc }) := by
    simp only [make_move, hv]
  have hnd2 : keysNodup L2 := by
    have h := keysNodup_dpop (dpop b.piece_locations m.end_position).2 m.start_position hnd1
    rw [hv] at h
    exact h
  have hL2s : dget L2 m.start_position = none := by
    have h := dget_dpop_self (dpop b.piece_locations m.end_position).2 m.start_position hnd1
    rw [hv] at h
    exact h
  have hL2e : dget L2 m.end_position = none := by
    have h := dget_dpop_ne (dpop b.piece_locations m.end_position).2 m.start_position
      m.end_position hnes
    rw [hv] at h
    exact h.trans (dget_dpop_self b.piece_locations m.end_position hnd)
  have hL2q : ∀ q, q ≠ m.start_position → q ≠ m.end_position →
      dget L2 q = dget b.piece_locations q := by
    intro q hqs hqe
    have h := dget_dpop_ne (dpop b.piece_locations m.end_position).2 m.start_position q hqs
    rw [hv] at h
    exact h.trans (dget_dpop_ne _ _ _ hqe)
  have hnd3 : keysNodup (dset L2 m.end_position pc) := keysNodup_dset _ _ _ hnd2
  have hpop3 : (dpop (dset L2 m.end_position pc) m.end_position).1 = some pc := by
    rw [dpop_fst]; exact dget_dset_self _ _ _
  rcases hw : dpop (dset L2 m.end_position pc) m.end_position with ⟨w, L4⟩
  rw [hw] at hpop3
  have hw2 : w = some pc := hpop3
  subst hw2
  have hL4e : dget L4 m.end_position = none := by
    have h := dget_dpop_self (dset L2 m.end_position pc) m.end_position hnd3
    rw [hw] at h
    exact h
  have hL4q : ∀ q, q ≠ m.end_position →
      dget L4 q = dget (dset L2 m.end_position pc) q := by
    intro q hqe
    have h := dget_dpop_ne (dset L2 m.end_position pc) m.end_position q hqe
    rw [hw] at h
    exact h
  rcases hr : (dpop b.piece_locations m.end_position).1 with _ | rQ
  · refine ⟨none, { b with piece_locations := dset L2 m.end_position pc },
      { b with piece_locations := dset L4 m.start_position pc }, ?_, ?_, ?_⟩
    · rw [hmm, hr]
    · simp only [undo_move]
      rw [hw]
    · intro q
      show dget (dset L4 m.start_position pc) q = dget b.piece_locations q
      by_cases hqs : q = m.start_position
      · subst hqs
        rw [dget_dset_self]
        exact hocc.symm
      · by_cases hqe : q = m.end_position
        · subst hqe
          rw [dget_dset_ne _ _ _ _ hnes, hL4e]
          exact (hrem.symm.trans hr).symm
        · rw [dget_dset_ne _ _ _ _ hqs, hL4q q hqe, dget_dset_ne _ _ _ _ hqe,
            hL2q q hqs hqe]
  · refine ⟨some rQ, { b with piece_locations := dset L2 m.end_position pc },
      { b with piece_locations := dset (dset L4 m.start_position pc) m.end_position rQ },
      ?_, ?_, ?_⟩
    · rw [hmm, hr]
    · simp only [undo_move]
      rw [hw]
    · intro q
      show dget (dset (dset L4 m.start_position pc) m.end_position rQ) q =
        dget b.piece_locations q
      by_cases hqe : q = m.end_position
      · subst hqe
        rw [dget_dset_self]
        exact (hrem.symm.trans hr).symm
      · by_cases hqs : q = m.start_position
        · subst hqs
          rw [dget_dset_ne _ _ _ _ hne, dget_dset_self]
          exact hocc.symm
        · rw [dget_dset_ne _ _ _ _ hqe, dget_dset_ne _ _ _ _ hqs, hL4q q hqe,
            dget_dset_ne _ _ _ _ hqe, hL2q q hqs hqe]

/-- C2 witness: the round trip on the rook-capture board. -/
theorem C2_witness :
    keysNodup exRoundtrip.piece_locations ∧
    dget exRoundtrip.piece_locations exCapture.start_position = some redRook ∧
    exCapture.start_position ≠ exCapture.end_position ∧
    (∃ r b1 b2, make_move exRoundtrip exCapture = some (r, b1) ∧
      undo_move b1 exCapture r = some b2 ∧
      ∀ q, dget b2.piece_locations q = dget exRoundtrip.piece_locations q) :=
  ⟨by decide, by decide, by decide,
    C2_make_undo_roundtrip exRoundtrip exCapture redRook (by decide) (by decide) (by decide)⟩

/-! Claim C8: accumulator semantics of `get_moves`. -/

/-- One sliding ray only appends to its accumulator. -/
theorem slideRay_append (self : Piece) (b : Board) (position : Position)
    (poss : Option (List Position)) (pin : Option Dir) (d : Dir) (ts : List Nat) :
    ∀ ms : List Move,
      slideRay self b position poss pin d ts ms =
        ms ++ slideRay self b position poss pin d ts [] := by
  induction ts with
  | nil => intro ms; simp [slideRay]
  | cons t rest ih =>
    intro ms
    simp only [slideRay]
    by_cases hob : is_on_board b (getmove b position (d.1 * t) (d.2 * t)) = true
    · rw [if_pos hob, if_pos hob]
      cases check_for_piece b (getmove b position (d.1 * t) (d.2 * t)) with
      | none =>
        dsimp only
        by_cases hc : (inPoss poss (getmove b position (d.1 * t) (d.2 * t)) &&
            pinAllows pin d) = true
        · rw [if_pos hc, if_pos hc,
            ih (ms ++ [Move.mk position (getmove b position (d.1 * t) (d.2 * t))]),
            ih ([] ++ [Move.mk position (getmove b position (d.1 * t) (d.2 * t))])]
          simp
        · rw [if_neg hc, if_neg hc, ih ms]
      | some pc =>
        dsimp only
        by_cases hen : (!teamHasColor self.team pc.color) = true
        · rw [if_pos hen, if_pos hen]
          by_cases hc : (inPoss poss (getmove b position (d.1 * t) (d.2 * t)) &&
              pinAllows pin d) = true
          · rw [if_pos hc, if_pos hc]
            simp
          · rw [if_neg hc, if_neg hc]
            simp
        · rw [if_neg hen, if_neg hen]
          simp
    · rw [if_neg hob, if_neg hob]
      simp

/-- The forward-move block only appends to its accumulator. -/
theorem pawnForward_append (self : Piece) (b : Board) (position : Position)
    (poss : Option (List Position)) (pin : Option Dir) (e1 e2 : Position) (ms : List Move) :
    pawnForward self b position poss pin e1 e2 ms =
      ms ++ pawnForward self b position poss pin e1 e2 [] := by
  unfold pawnForward
  repeat' split
  all_goals simp

/-- The diagonal-left block only appends to its accumulator. -/
theorem pawnDiagLeft_append (self : Piece) (b : Board) (position : Position)
    (poss : Option (List Position)) (pin : Option Dir) (e : Position) (ms : List Move) :
    pawnDiagLeft self b position poss pin e ms =
      ms ++ pawnDiagLeft self b position poss pin e [] := by
  unfold pawnDiagLeft
  repeat' split
  all_goals simp

/-- The diagonal-right block only appends to its accumulator. -/
theorem pawnDiagRight_append (self : Piece) (b : Board) (position : Position)
    (poss : Option (List Position)) (pin : Option Dir) (e : Position) (ms : List Move) :
    pawnDiagRight self b position poss pin e ms =
      ms ++ pawnDiagRight self b position poss pin e [] := by
  unfold pawnDiagRight
  repeat' split
  all_goals simp

/-- The pawn generator only appends to its accumulator. -/
theorem pawn_append (self : Piece) (b : Board) (position : Position)
    (poss : Option (List Position)) (pin : Option PinInfo) (ms : List Move) :
    Pawn.get_legal_moves self b ms position poss pin =
      ms ++ Pawn.get_legal_moves self b [] position poss pin := by
  unfold Pawn.get_legal_moves
  by_cases hob : is_on_board b (getmove b position self.direction.1 self.direction.2) = true
  · rw [if_pos hob, if_pos hob,
      pawnForward_append self b position poss (pinDirectionOf pin self) _ _ ms,
      pawnDiagLeft_append self b position poss (pinDirectionOf pin self) _
        (pawnForward self b position poss (pinDirectionOf pin self) _ _ [])]
    rw [pawnDiagLeft_append self b position poss (pinDirectionOf pin self) _
      (ms ++ pawnForward self b position poss (pinDirectionOf pin self) _ _ [])]
    rw [pawnDiagRight_append self b position poss (pinDirectionOf pin self) _
      (ms ++ pawnForward self b position poss (pinDirectionOf pin self) _ _ [] ++
        pawnDiagLeft self b position poss (pinDirectionOf pin self) _ [])]
    rw [pawnDiagRight_append self b position poss (pinDirectionOf pin self) _
      (pawnForward self b position poss (pinDirectionOf pin self) _ _ [] ++
        pawnDiagLeft self b position poss (pinDirectionOf pin self) _ [])]
    simp
  · rw [if_neg hob, if_neg hob]
    simp

/-- The knight generator only appends to its accumulator. -/
theorem knight_append (self : Piece) (b : Board) (position : Position)
    (poss : Option (List Position)) (pin : Option PinInfo) (ms : List Move) :
    Knight.get_legal_moves self b ms position poss pin =
      ms ++ Knight.get_legal_moves self b [] position poss pin := by
  unfold Knight.get_legal_moves
  apply foldl_append_step
  intro ms2 a
  dsimp only
  repeat' split
  all_goals simp

/-- The rook generator only appends to its accumulator. -/
theorem rook_append (self : Piece) (b : Board) (position : Position)
    (poss : Option (List Position)) (pin : Option PinInfo) (ms : List Move) :
    Rook.get_legal_moves self b ms position poss pin =
      ms ++ Rook.get_legal_moves self b [] position poss pin := by
  unfold Rook.get_legal_moves
  apply foldl_append_step
  intro ms2 d
  exact slideRay_append self b position poss (pinDirectionOf pin self) d _ ms2

/-- The bishop generator only appends to its accumulator. -/
theorem bishop_append (self : Piece) (b : Board) (position : Position)
    (poss : Option (List Position)) (pin : Option PinInfo) (ms : List Move) :
    Bishop.get_legal_moves self b ms position poss pin =
      ms ++ Bishop.get_legal_moves self b [] position poss pin := by
  unfold Bishop.get_legal_moves
  apply foldl_append_step
  intro ms2 d
  exact slideRay_append self b position poss (pinDirectionOf pin self) d _ ms2

/-- The queen generator only appends to its accumulator. -/
theorem queen_append (self : Piece) (b : Board) (position : Position)
    (poss : Option (List Position)) (pin : Option PinInfo) (ms : List Move) :
    Queen.get_legal_moves self b ms position poss pin =
      ms ++ Queen.get_legal_moves self b [] position poss pin := by
  unfold Queen.get_legal_moves
  rw [rook_append self b position poss pin ms,
    bishop_append self b position poss pin
      (ms ++ Rook.get_legal_moves self b [] position poss pin),
    bishop_append self b position poss pin
      (Rook.get_legal_moves self b [] position poss pin),
    List.append_assoc]

/-- The king generator only appends to its accumulator. -/
theorem king_append (self : Piece) (b : Board) (position : Position)
    (poss : Option (List Position)) (pin : Option PinInfo) (ms : List Move) :
    King.get_legal_moves self b ms position poss pin =
      ms ++ King.get_legal_moves self b [] position poss pin := by
  unfold King.get_legal_moves
  apply foldl_append_step
  intro ms2 a
  dsimp only
  repeat' split
  all_goals simp

/-- Every piece's `get_legal_moves` only appends to its accumulator. -/
theorem piece_append (self : Piece) (b : Board) (position : Position)
    (poss : Option (List Position)) (pin : Option PinInfo) (ms : List Move) :
    self.get_legal_moves b ms position poss pin =
      ms ++ self.get_legal_moves b [] position poss pin := by
  unfold Piece.get_legal_moves
  by_cases hP : (self.piece_name == "P") = true
  · rw [if_pos hP, if_pos hP]; exact pawn_append _ _ _ _ _ _
  · rw [if_neg hP, if_neg hP]
    by_cases hN : (self.piece_name == "N") = true
    · rw [if_pos hN, if_pos hN]; exact knight_append _ _ _ _ _ _
    · rw [if_neg hN, if_neg hN]
      by_cases hB : (self.piece_name == "B") = true
      · rw [if_pos hB, if_pos hB]; exact bishop_append _ _ _ _ _ _
      · rw [if_neg hB, if_neg hB]
        by_cases hR : (self.piece_name == "R") = true
        · rw [if_pos hR, if_pos hR]; exact rook_append _ _ _ _ _ _
        · rw [if_neg hR, if_neg hR]
          by_cases hQ : (self.piece_name == "Q") = true
          · rw [if_pos hQ, if_pos hQ]; exact queen_append _ _ _ _ _ _
          · rw [if_neg hQ, if_neg hQ]
            by_cases hK : (self.piece_name == "K") = true
            · rw [if_pos hK, if_pos hK]; exact king_append _ _ _ _ _ _
            · rw [if_neg hK, if_neg hK]; simp

/-- The `get_moves` piece loop only appends to the cached accumulator. -/
theorem getMovesAux_append (b : Board) (in_check : Bool) (pins : PinInfo)
    (cd : List (Position × Dir)) (ks : List Position) :
    ∀ acc : List Move,
      getMovesAux b in_check pins cd ks acc =
        (getMovesAux b in_check pins cd ks []).map (fun l => acc ++ l) := by
  induction ks with
  | nil => intro acc; simp [getMovesAux]
  | cons pos rest ih =>
    intro acc
    simp only [getMovesAux]
    cases dget b.piece_locations pos with
    | none =>
      rw [ih acc]
    | some pc =>
      dsimp only
      by_cases hcol : (pc.color == (get_current_player b).color) = true
      · rw [if_pos hcol, if_pos hcol]
        cases in_check with
        | false =>
          rw [if_neg Bool.false_ne_true, if_neg Bool.false_ne_true]
          rw [piece_append pc b pos none (some pins) acc, ih, ih
            (pc.get_legal_moves b [] pos none (some pins))]
          cases getMovesAux b false pins cd rest [] with
          | none => simp
          | some l => simp
        | true =>
          rw [if_pos rfl, if_pos rfl]
          by_cases h0 : (cd.length == 0) = true
          · rw [if_pos h0, if_pos h0]
            simp
          · rw [if_neg h0, if_neg h0]
            by_cases h1 : (cd.length == 1) = true
            · rw [if_pos h1, if_pos h1]
              by_cases hkn : (((dget b.piece_locations (cd.headD (⟨0, 0⟩, (0, 0))).1).map
                  (fun q => q.piece_name)) == some "N") = true
              · rw [if_pos hkn, if_pos hkn]
                rw [ih (acc ++ [Move.mk pos (cd.headD (⟨0, 0⟩, (0, 0))).1]),
                  ih ([] ++ [Move.mk pos (cd.headD (⟨0, 0⟩, (0, 0))).1])]
                cases getMovesAux b true pins cd rest [] with
                | none => simp
                | some l => simp
              · rw [if_neg hkn, if_neg hkn]
                rw [piece_append pc b pos (block_or_capture b cd) none acc, ih, ih
                  (pc.get_legal_moves b [] pos (block_or_capture b cd) none)]
                cases getMovesAux b true pins cd rest [] with
                | none => simp
                | some l => simp
            · rw [if_neg h1, if_neg h1]
              by_cases hking : (pc.piece_name == "K") = true
              · rw [if_pos hking, if_pos hking]
                rw [piece_append pc b pos none none acc, ih, ih
                  (pc.get_legal_moves b [] pos none none)]
                cases getMovesAux b true pins cd rest [] with
                | none => simp
                | some l => simp
              · rw [if_neg hking, if_neg hking]
                rw [ih acc]
      · rw [if_neg hcol, if_neg hcol]
        rw [ih acc]

/-- C8 counterexample: a second `get_moves` call on the lone-king board does
not return the same list as the first — the cache is appended to, not
overwritten, so the claim's consecutive-calls consequence fails. -/
theorem C8_counterexample :
    (get_moves ((get_moves exLoneKing).2)).1 ≠ (get_moves exLoneKing).1 := by
  decide

/-- The current player does not depend on the cached move list. -/
theorem get_current_player_cache_irrel (b : Board) (x : List Move) :
    get_current_player { b with legal_moves := x } = get_current_player b := rfl

/-- Piece move generation does not depend on the cached move list. -/
theorem piece_moves_cache_irrel (pc : Piece) (b : Board) (x : List Move) (ms : List Move)
    (pos : Position) (poss : Option (List Position)) (pin : Option PinInfo) :
    pc.get_legal_moves { b with legal_moves := x } ms pos poss pin =
      pc.get_legal_moves b ms pos poss pin := rfl

/-- The block-or-capture set does not depend on the cached move list. -/
theorem block_or_capture_cache_irrel (b : Board) (x : List Move)
    (cd : List (Position × Dir)) :
    block_or_capture { b with legal_moves := x } cd = block_or_capture b cd := rfl

/-- Check detection does not depend on the cached move list. -/
theorem check_info_cache_irrel (b : Board) (x : List Move) :
    check_info { b with legal_moves := x } = check_info b := rfl

/-- The `get_moves` piece loop does not depend on the cached move list
except through its accumulator argument. -/
theorem getMovesAux_cache_irrel (b : Board) (x : List Move) (i : Bool) (p : PinInfo)
    (cd : List (Position × Dir)) (ks : List Position) (acc : List Move) :
    getMovesAux { b with legal_moves := x } i p cd ks acc =
      getMovesAux b i p cd ks acc := by
  induction ks generalizing acc with
  | nil => rfl
  | cons pos rest ih =>
    simp only [getMovesAux]
    dsimp only
    simp only [piece_moves_cache_irrel, block_or_capture_cache_irrel,
      get_current_player_cache_irrel, ih]

/-- The returned component of `get_moves` is the piece-loop result seeded
with the cached `legal_moves`. -/
theorem get_moves_fst (b : Board) :
    (get_moves b).1 = getMovesAux b (check_info b).1 (check_info b).2.1 (check_info b).2.2
      (dkeys b.piece_locations) b.legal_moves := by
  unfold get_moves
  dsimp only
  cases getMovesAux b (check_info b).1 (check_info b).2.1 (check_info b).2.2
      (dkeys b.piece_locations) b.legal_moves with
  | none => rfl
  | some l => rfl

/-- C8 amended: `get_moves` has accumulator (append) semantics, not overwrite
semantics: its result equals the pre-existing `legal_moves` cache followed by
the moves it would compute from an empty cache, so consecutive calls coincide
only when the cache starts empty. -/
theorem C8_amended_get_moves_appends (b : Board) :
    (get_moves b).1 =
      ((get_moves { b with legal_moves := [] }).1).map (fun l => b.legal_moves ++ l) := by
  rw [get_moves_fst b, get_moves_fst { b with legal_moves := [] }]
  rw [check_info_cache_irrel b []]
  rw [show ({ b with legal_moves := ([] : List Move) } : Board).piece_locations =
    b.piece_locations from rfl]
  rw [show ({ b with legal_moves := ([] : List Move) } : Board).legal_moves =
    ([] : List Move) from rfl]
  rw [getMovesAux_cache_irrel b []]
  exact getMovesAux_append b _ _ _ _ b.legal_moves

/-! Claim C10: single knight check makes every owned piece "capture" it. -/

/-- Under unique keys, every entry of the dict resolves to its own value. -/
theorem dget_of_mem_nodup (l : PieceLocations) (h : keysNodup l) :
    ∀ e ∈ l, dget l e.1 = some e.2 := by
  induction l with
  | nil => intro e he; cases he
  | cons a rest ih =>
    have hsplit : a.1 ∉ dkeys rest ∧ keysNodup rest := by
      have hh := h
      simp only [keysNodup, dkeys, List.map_cons, List.nodup_cons] at hh
      exact ⟨by simpa [dkeys] using hh.1, hh.2⟩
    intro e he
    rcases List.mem_cons.mp he with rfl | hm
    · simp [dget]
    · have hkey : e.1 ∈ dkeys rest := by
        simp only [dkeys, List.mem_map]
        exact ⟨e, hm, rfl⟩
      have hne : ¬ a.1 = e.1 := fun hh => hsplit.1 (hh ▸ hkey)
      simp only [dget, if_neg hne]
      exact ih hsplit.2 e hm

/-- The `get_moves` piece loop in the single-knight-check state: every owned
piece contributes exactly the move onto the checking knight's square, every
other piece contributes nothing. -/
theorem getMovesAux_knight_check (b : Board) (pins : PinInfo) (s : Position) (d : Dir)
    (hname : (dget b.piece_locations s).map (fun q => q.piece_name) = some "N") :
    ∀ (ps : PieceLocations) (acc : List Move),
      (∀ e ∈ ps, dget b.piece_locations e.1 = some e.2) →
      getMovesAux b true pins [(s, d)] (ps.map (fun e => e.1)) acc =
        some (acc ++ (ps.filter (fun e => e.2.color == (get_current_player b).color)).map
          (fun e => Move.mk e.1 s)) := by
  intro ps
  induction ps with
  | nil => intro acc _; simp [getMovesAux]
  | cons e rest ih =>
    intro acc hmem
    have he : dget b.piece_locations e.1 = some e.2 := hmem e (List.mem_cons_self _ _)
    have htail : ∀ x ∈ rest, dget b.piece_locations x.1 = some x.2 :=
      fun x hx => hmem x (List.mem_cons_of_mem _ hx)
    simp only [List.map_cons, getMovesAux, he]
    by_cases hcol : (e.2.color == (get_current_player b).color) = true
    · rw [if_pos hcol, if_pos trivial,
        if_neg (by simp : ¬ ((([(s, d)] : List (Position × Dir)).length == 0) = true)),
        if_pos (by simp : ((([(s, d)] : List (Position × Dir)).length == 1) = true))]
      simp only [List.headD_cons]
      rw [hname]
      rw [if_pos (by decide : ((some "N" == some "N") = true))]
      rw [ih (acc ++ [Move.mk e.1 s]) htail]
      simp [List.filter_cons, hcol]
    · rw [if_neg hcol]
      rw [ih acc htail]
      simp [List.filter_cons, hcol]

/-- C10: when the current player is in check by exactly one piece and that
piece is a knight, `get_moves` on a fresh cache returns exactly one move per
owned piece — from that piece's square onto the knight's square — and
nothing else. -/
theorem C10_knight_check_all_captures (b : Board) (pins : PinInfo) (s : Position)
    (d : Dir) (pc : Piece)
    (hnd : keysNodup b.piece_locations)
    (hlm : b.legal_moves = [])
    (hci : check_info b = (true, pins, [(s, d)]))
    (hpc : dget b.piece_locations s = some pc)
    (hN : pc.piece_name = "N") :
    (get_moves b).1 =
      some ((b.piece_locations.filter
        (fun e => e.2.color == (get_current_player b).color)).map
          (fun e => Move.mk e.1 s)) := by
  rw [get_moves_fst b, hci, hlm]
  have hname : (dget b.piece_locations s).map (fun q => q.piece_name) = some "N" := by
    rw [hpc]
    simp [hN]
  have h := getMovesAux_knight_check b pins s d hname b.piece_locations []
    (dget_of_mem_nodup _ hnd)
  simpa using h

set_option synthInstance.maxSize 1024 in
/-- C10 witness: on the knight-check board the red king is the only owned
piece, and the unique generated move is king-takes-knight square. -/
theorem C10_witness :
    (get_moves exKnightCheck).1 =
      some ((exKnightCheck.piece_locations.filter
        (fun e => e.2.color == (get_current_player exKnightCheck).color)).map
          (fun e => Move.mk e.1 ⟨5, 6⟩)) :=
  C10_knight_check_all_captures exKnightCheck [] ⟨5, 6⟩ (-2, -1) blueKnight
    (by decide) (by decide) (by decide) (by decide) (by decide)

/-! Claim C3: `simulate` does not mutate the receiver. -/

/-- C3: at the store level, `simulate` only allocates and writes fresh cells:
the receiver board object (its `current_player` and `piece_locations`
reference included) and the dict it references are untouched, and the call
returns a reference to a new, distinct board. -/
theorem C3_simulate_frame (st : Store) (self : Nat) (bo : BoardObj) (move : Move)
    (switch : Bool)
    (hbo : st.boards[self]? = some bo)
    (href : bo.locRef < st.dicts.length)
    (happ : (simulate (bo.view st) move switch).isSome) :
    (simulateStore st self move switch).1.boards[self]? = some bo ∧
    (simulateStore st self move switch).1.dicts[bo.locRef]? = st.dicts[bo.locRef]? ∧
    ∃ r, (simulateStore st self move switch).2 = some r ∧ r ≠ self := by
  have hself : self < st.boards.length := by
    rcases List.getElem?_eq_some.mp hbo with ⟨h, _⟩
    exact h
  unfold simulateStore
  rw [hbo]
  rcases hsim : simulate (bo.view st) move switch with _ | nb
  · rw [hsim] at happ
    simp at happ
  · dsimp only
    rw [hsim]
    dsimp only
    refine ⟨?_, ?_, st.boards.length, rfl, Nat.ne_of_gt hself⟩
    · rw [List.getElem?_append]
      rw [if_pos hself]
      exact hbo
    · rw [List.getElem?_set_ne (Nat.ne_of_gt href)]
      rw [List.getElem?_append, if_pos href]

/-- C3 witness: simulating a king move on the one-board store leaves the
original board object and its dict unchanged and returns a fresh board. -/
theorem C3_witness :
    exStore.boards[0]? = some ⟨14, 0, [], stdPlayers, 0⟩ ∧
    (0 : Nat) < exStore.dicts.length ∧
    (simulate ((⟨14, 0, [], stdPlayers, 0⟩ : BoardObj).view exStore)
      (Move.mk ⟨7, 7⟩ ⟨7, 8⟩) true).isSome ∧
    ((simulateStore exStore 0 (Move.mk ⟨7, 7⟩ ⟨7, 8⟩) true).1.boards[0]? =
        some ⟨14, 0, [], stdPlayers, 0⟩ ∧
      (simulateStore exStore 0 (Move.mk ⟨7, 7⟩ ⟨7, 8⟩) true).1.dicts[(0 : Nat)]? =
        exStore.dicts[(0 : Nat)]? ∧
      ∃ r, (simulateStore exStore 0 (Move.mk ⟨7, 7⟩ ⟨7, 8⟩) true).2 = some r ∧ r ≠ 0) :=
  ⟨by decide, by decide, by decide,
    C3_simulate_frame exStore 0 ⟨14, 0, [], stdPlayers, 0⟩ (Move.mk ⟨7, 7⟩ ⟨7, 8⟩) true
      (by decide) (by decide) (by decide)⟩

/-! Claim C9: depth-1 alpha-beta picks the strictly best capture. -/

/-- `simulate` succeeds exactly when the underlying `make_move` does. -/
theorem simulate_isSome (b : Board) (x : Move) (sw : Bool)
    (h1 : x.start_position ≠ x.end_position)
    (h2 : (dget b.piece_locations x.start_position).isSome) :
    (simulate b x sw).isSome := by
  unfold simulate simulateNoSwitch
  have hmk := make_move_isSome
    { dimension := 14, piece_locations := b.piece_locations, legal_moves := [],
      players := b.players, current_player := b.current_player } x h2 h1
  rcases hmm : make_move
      { dimension := 14, piece_locations := b.piece_locations, legal_moves := [],
        players := b.players, current_player := b.current_player } x with _ | r
  · rw [hmm] at hmk
    simp at hmk
  · simp [hmm]

/-- Decorating a move list with its simulation scores succeeds when every
simulation does, and records the score of each move's simulation. -/
theorem decorate_spec (b : Board) (l : List Move)
    (h : ∀ x ∈ l, ∃ bx, simulate b x false = some bx) :
    ∃ keyed : List (Move × Int),
      decorate b l = some keyed ∧
      keyed.map (fun p => p.1) = l ∧
      (∀ p ∈ keyed, (simulate b p.1 false).map score = some p.2) := by
  induction l with
  | nil => exact ⟨[], rfl, rfl, by simp⟩
  | cons x rest ih =>
    obtain ⟨bx, hbx⟩ := h x (List.mem_cons_self _ _)
    obtain ⟨keyed, hk1, hk2, hk3⟩ := ih (fun y hy => h y (List.mem_cons_of_mem _ hy))
    refine ⟨(x, score bx) :: keyed, ?_, ?_, ?_⟩
    · simp [decorate, hbx, hk1]
    · simp [hk2]
    · intro p hp
      rcases List.mem_cons.mp hp with rfl | hm2
      · simp [hbx]
      · exact hk3 p hm2

/-- Stable descending sort by score: a strictly maximal element comes first,
and everything after it scores at most as much. -/
theorem sorted_desc_head (keyed : List (Move × Int)) (m : Move) (km : Int)
    (hmem : (m, km) ∈ keyed)
    (hmax : ∀ p ∈ keyed, p.1 ≠ m → p.2 < km)
    (hmval : ∀ p ∈ keyed, p.1 = m → p.2 = km) :
    ∃ tl, keyed.mergeSort (fun x y => decide (y.2 ≤ x.2)) = (m, km) :: tl ∧
      ∀ p ∈ tl, p ∈ keyed ∧ p.2 ≤ km := by
  have hperm := List.mergeSort_perm keyed (fun x y => decide (y.2 ≤ x.2))
  have hsorted := @List.sorted_mergeSort (Move × Int)
    (fun x y => decide (y.2 ≤ x.2))
    (fun a b c hab hbc => by
      simp only [decide_eq_true_eq] at hab hbc ⊢
      exact le_trans hbc hab)
    (fun a b => by
      simp only [Bool.or_eq_true, decide_eq_true_eq]
      exact le_total b.2 a.2)
    keyed
  rcases hms : keyed.mergeSort (fun x y => decide (y.2 ≤ x.2)) with _ | ⟨p0, tl⟩
  · rw [hms] at hperm
    exact absurd (hperm.symm.mem_iff.mp hmem) (by simp)
  · rw [hms] at hperm hsorted
    have hp0k : p0 ∈ keyed := hperm.mem_iff.mp (List.mem_cons_self _ _)
    have htl : ∀ p ∈ tl, p ∈ keyed ∧ p.2 ≤ km := by
      intro p hp
      have hpk : p ∈ keyed := hperm.mem_iff.mp (List.mem_cons_of_mem _ hp)
      refine ⟨hpk, ?_⟩
      have hle : p.2 ≤ p0.2 := by
        have := (List.pairwise_cons.mp hsorted).1 p hp
        simpa using this
      by_cases hpm : p0.1 = m
      · exact hle.trans (le_of_eq (hmval p0 hp0k hpm))
      · exact hle.trans (le_of_lt (hmax p0 hp0k hpm))
    have hp0 : p0 = (m, km) := by
      by_cases hpm : p0.1 = m
      · have h2 := hmval p0 hp0k hpm
        rcases p0 with ⟨p1, p2⟩
        simp only at hpm h2
        rw [hpm, h2]
      · exfalso
        have hlt : p0.2 < km := hmax p0 hp0k hpm
        have hmk : (m, km) ∈ p0 :: tl := hperm.mem_iff.mpr hmem
        rcases List.mem_cons.mp hmk with heq | hintl
        · exact hpm (by rw [← heq])
        · have := (List.pairwise_cons.mp hsorted).1 (m, km) hintl
          simp only [decide_eq_true_eq] at this
          exact absurd (lt_of_le_of_lt this hlt) (lt_irrefl km)
    exact ⟨tl, by rw [hp0], htl⟩

/-- Once the running best is the strict maximum `km` with `best_move = m`,
the rest of the depth-1 loop never changes either. -/
theorem abLoop_keeps_best (b : Board) (beta : XInt) (km : Int) (m : Move)
    (ms : List Move) :
    ∀ alpha : XInt,
      (∀ x ∈ ms, ∃ bt bf, simulate b x true = some bt ∧ simulate b x false = some bf ∧
        score bt = -(score bf) ∧ score bf ≤ km) →
      abLoop (alpha_beta 0) b 1 1 beta ms (.fin km) alpha (some m) =
        some (.fin km, some m) := by
  induction ms with
  | nil => intro alpha _; rfl
  | cons x rest ih =>
    intro alpha hms
    obtain ⟨bt, bf, hbt, hbf, hnegx, hle⟩ := hms x (List.mem_cons_self _ _)
    have hrecur : alpha_beta 0 bt 1 (XInt.neg beta) (XInt.neg alpha) (some m) =
        some (.fin (score bt), some m) := rfl
    have h2 : XInt.neg (.fin (score bt)) = .fin (score bf) := by
      rw [hnegx]
      simp [XInt.neg]
    have hltf : ¬ (XInt.lt (.fin km) (.fin (score bf)) = true) := by
      simp only [XInt.lt, decide_eq_true_eq]
      omega
    simp only [abLoop, hbt, hrecur, h2]
    rw [if_neg hltf]
    dsimp only
    by_cases hb : XInt.le beta (if XInt.lt alpha (XInt.fin km) then XInt.fin km
        else alpha) = true
    · rw [if_pos hb]
    · rw [if_neg hb]
      exact ih _ (fun y hy => hms y (List.mem_cons_of_mem _ hy))

/-- C9: at depth 1 with initial depth 1, when the cached legal-move list
holds a capturing move whose post-move material balance for the mover
strictly exceeds that of every alternative cached move, `alpha_beta` sets
`best_move` to that capture, whatever the alpha/beta bounds.  (The
hypothesis `hneg` records that the turn rotation flips the score's sign,
which holds for the game's red/blue/yellow/green rotation.) -/
theorem C9_alpha_beta_depth1_picks_capture (b : Board) (m : Move)
    (hm : m ∈ b.legal_moves)
    (hsim : ∀ x ∈ b.legal_moves, x.start_position ≠ x.end_position ∧
      (dget b.piece_locations x.start_position).isSome)
    (hneg : ∀ x ∈ b.legal_moves,
      (simulate b x true).map score = (simulate b x false).map (fun bb => -(score bb)))
    (hmax : ∀ x ∈ b.legal_moves, x ≠ m → ∃ vx vm,
      (simulate b x false).map score = some vx ∧
      (simulate b m false).map score = some vm ∧ vx < vm)
    (hcap : (dget b.piece_locations m.end_position).isSome ∧
      (dget b.piece_locations m.end_position).map (fun q => q.team) ≠
        (dget b.piece_locations m.start_position).map (fun q => q.team))
    (alpha beta : XInt) :
    ∃ v, alpha_beta 1 b 1 alpha beta none = some (v, some m) := by
  have hsimf : ∀ x ∈ b.legal_moves, ∃ bx, simulate b x false = some bx := by
    intro x hx
    exact Option.isSome_iff_exists.mp (simulate_isSome b x false (hsim x hx).1 (hsim x hx).2)
  have hsimt : ∀ x ∈ b.legal_moves, ∃ bx, simulate b x true = some bx := by
    intro x hx
    exact Option.isSome_iff_exists.mp (simulate_isSome b x true (hsim x hx).1 (hsim x hx).2)
  obtain ⟨bm, hbm⟩ := hsimf m hm
  obtain ⟨keyed, hdec, hfst, hval⟩ := decorate_spec b b.legal_moves hsimf
  have hmemk : ∀ p ∈ keyed, p.1 ∈ b.legal_moves := by
    intro p hp
    rw [← hfst]
    exact List.mem_map_of_mem _ hp
  have hmvalk : ∀ p ∈ keyed, p.1 = m → p.2 = score bm := by
    intro p hp hpm
    have h := hval p hp
    rw [hpm, hbm] at h
    simpa using h.symm
  have hmaxk : ∀ p ∈ keyed, p.1 ≠ m → p.2 < score bm := by
    intro p hp hpm
    obtain ⟨vx, vm, hv1, hv2, hlt⟩ := hmax p.1 (hmemk p hp) hpm
    have h := hval p hp
    rw [h] at hv1
    rw [hbm] at hv2
    simp only [Option.some.injEq] at hv1
    simp only [Option.map] at hv2
    simp only [Option.some.injEq] at hv2
    omega
  have hmk : (m, score bm) ∈ keyed := by
    have hmm : m ∈ keyed.map (fun p => p.1) := by rw [hfst]; exact hm
    obtain ⟨p, hp, hpm⟩ := List.mem_map.mp hmm
    have h2 := hmvalk p hp hpm
    rcases p with ⟨p1, p2⟩
    simp only at hpm h2
    rw [← hpm, ← h2]
    exact hp
  obtain ⟨tl, hsort, htl⟩ := sorted_desc_head keyed m (score bm) hmk hmaxk hmvalk
  have hordered : get_ordered_moves b = some (m :: tl.map (fun p => p.1)) := by
    unfold get_ordered_moves
    rw [hdec]
    dsimp only [Option.map]
    rw [hsort]
    simp
  obtain ⟨btm, hbtm⟩ := hsimt m hm
  have hnegm := hneg m hm
  rw [hbtm, hbm] at hnegm
  have hscorem : score btm = -(score bm) := by simpa using hnegm
  have hab : alpha_beta 1 b 1 alpha beta none =
      abLoop (alpha_beta 0) b 1 1 beta (m :: tl.map (fun p => p.1)) .negInf alpha none := by
    show (match get_ordered_moves b with
      | none => none
      | some ordered_moves =>
        abLoop (alpha_beta 0) b 1 1 beta ordered_moves .negInf alpha none) =
      abLoop (alpha_beta 0) b 1 1 beta (m :: tl.map (fun p => p.1)) .negInf alpha none
    rw [hordered]
  rw [hab]
  have hrecur : alpha_beta 0 btm 1 (XInt.neg beta) (XInt.neg alpha) none =
      some (.fin (score btm), none) := rfl
  have h2 : XInt.neg (.fin (score btm)) = .fin (score bm) := by
    rw [hscorem]
    simp [XInt.neg]
  have hltt : XInt.lt XInt.negInf (.fin (score bm)) = true := rfl
  simp only [abLoop, hbtm, hrecur, h2]
  rw [if_pos hltt, if_pos (by decide : (((1 : Nat) == 1)) = true)]
  dsimp only
  by_cases hb : XInt.le beta (if XInt.lt alpha (XInt.fin (score bm)) then
      XInt.fin (score bm) else alpha) = true
  · rw [if_pos hb]
    exact ⟨.fin (score bm), rfl⟩
  · rw [if_neg hb]
    refine ⟨.fin (score bm), ?_⟩
    apply abLoop_keeps_best
    intro y hy
    obtain ⟨p, hp, hpy⟩ := List.mem_map.mp hy
    have hpk := (htl p hp).1
    have hyL : y ∈ b.legal_moves := by
      rw [← hpy]
      exact hmemk p hpk
    obtain ⟨bty, hbty⟩ := hsimt y hyL
    obtain ⟨bfy, hbfy⟩ := hsimf y hyL
    have hnegy := hneg y hyL
    rw [hbty, hbfy] at hnegy
    have hny : score bty = -(score bfy) := by simpa using hnegy
    have hvy : score bfy = p.2 := by
      have h := hval p hpk
      rw [hpy, hbfy] at h
      simpa using h
    refine ⟨bty, bfy, hbty, hbfy, hny, ?_⟩
    rw [hvy]
    exact (htl p hp).2

/-- C9 witness: on the rook-versus-pawn board with the capture and a quiet
move cached, depth-1 alpha-beta selects the capture. -/
theorem C9_witness :
    exCapture ∈ exAlphaBeta.legal_moves ∧
    (dget exAlphaBeta.piece_locations exCapture.end_position).isSome = true ∧
    ∃ v, alpha_beta 1 exAlphaBeta 1 XInt.negInf XInt.posInf none =
      some (v, some exCapture) :=
  ⟨by decide, by decide,
    C9_alpha_beta_depth1_picks_capture exAlphaBeta exCapture
      (by decide)
      (by decide)
      (by decide)
      (by
        intro x hx hne
        rcases List.mem_cons.mp hx with rfl | hx2
        · exact ⟨4, 5, by decide, by decide, by decide⟩
        · rcases List.mem_cons.mp hx2 with rfl | hx3
          · exact absurd rfl hne
          · cases hx3)
      (by decide)
      XInt.negInf XInt.posInf⟩

end FourChess
